import Mathlib

/-!
# go-fileencrypt: shallow embedding and verification

This file embeds the core of the `go-fileencrypt` repository in Lean 4 and
proves/refutes a list of claims about it.  The embedding covers:

* the wire-format constants (`format.go`),
* the chunked streaming encryptor (`internal/core/encryptor.go`),
* the chunked streaming decryptor (`decryptor.go`),
* constructor/option plumbing (`internal/core/options.go`),
* key-derivation validation (`internal/core/key.go`),
* the secure key buffer (`internal/crypto/secure_buffer.go`).

Modelling conventions:

* Go `[]byte` is `List Nat` with each element `< 256`; adversarial inputs are
  arbitrary `List Nat` and theorems add byte-validity hypotheses where the
  decoded value matters.
* Go `uint32`/`uint64` arithmetic is `Nat` with explicit `% 2^32` / `% 2^64`;
  Go `int64` is `Int`, and the Go conversions `uint64(int64)` / `int64(uint64)`
  are modelled with the exact two's-complement reinterpretation.
* The AES-256-GCM instance built from the key (Go standard library
  `crypto/aes` + `crypto/cipher`, outside this repository) is a parameter: a
  `GCMModel` bundling the `Seal` and `Open` operations.  Theorems that need
  AEAD correctness take the standard-library contract (`Open` inverts `Seal`,
  `Seal` adds a 16-byte tag) as hypotheses, and witnesses instantiate them
  with an executable stand-in model.
* `io.Reader`/`io.Writer` streams are byte lists; a source read returns up to
  `chunkSize` bytes and the stream ends in a clean EOF when the list is
  exhausted.  Each stream function returns the bytes written to the sink so
  far together with the recorded progress-callback invocations and an
  optional error: on error, the partially written sink contents stand, as in
  the Go code.
* The `context.Context` is modelled as never cancelled (no claim concerns
  cancellation), and the progress callback `func(float64)` is modelled by
  recording the mathematically exact fraction as a rational number.
* Loop recursion uses an explicit fuel argument so every definition is
  structurally recursive and kernel-evaluable; callers pass the input length,
  which bounds the iteration count because every iteration consumes at least
  one input byte.
-/

namespace FileEncrypt

/-- Go `byte`, modelled as `Nat`; program-produced bytes are `< 256`. -/
abbrev Byte := Nat

/-! ## Wire-format constants (`format.go`) -/

/-- `MagicBytes = "GFE"` as raw bytes (`'G' = 71`, `'F' = 70`, `'E' = 69`). -/
def MagicBytes : List Byte := [71, 70, 69]

/-- `Version = 1`. -/
def Version : Byte := 1

/-- `NonceSize = 12`. -/
def NonceSize : Nat := 12

/-- `HeaderSize = len(MagicBytes) + 1 + NonceSize + 8`. -/
def HeaderSize : Nat := MagicBytes.length + 1 + NonceSize + 8

/-- `MaxChunkSize = 10 * 1024 * 1024`. -/
def MaxChunkSize : Nat := 10 * 1024 * 1024

/-! ## Option constants (`options.go`) -/

/-- `MinChunkSize = 1`. -/
def MinChunkSize : Nat := 1

/-- `DefaultChunkSize = 1 * 1024 * 1024`. -/
def DefaultChunkSize : Nat := 1 * 1024 * 1024

/-- `AlgorithmAESGCM Algorithm = 1` (Go `Algorithm` is a `uint8`). -/
def AlgorithmAESGCM : Nat := 1

/-- `AlgorithmChaCha20Poly1305 Algorithm = 2`. -/
def AlgorithmChaCha20Poly1305 : Nat := 2

/-- `AlgorithmMLKEMHybrid Algorithm = 3`. -/
def AlgorithmMLKEMHybrid : Nat := 3

/-- `Algorithm.IsSupported`: `a == AlgorithmAESGCM`. -/
def isSupported (a : Nat) : Bool := a == AlgorithmAESGCM

/-- `gcm.Overhead()` for AES-GCM: the 16-byte authentication tag. -/
def TagSize : Nat := 16

/-! ## Big-endian integer codecs (`encoding/binary`) -/

/-- `binary.BigEndian.PutUint32`: the 4 big-endian bytes of `n` as a
`uint32` (i.e. of `n % 2^32`). -/
def be32 (n : Nat) : List Byte :=
  [n % 2 ^ 32 / 2 ^ 24, n % 2 ^ 24 / 2 ^ 16, n % 2 ^ 16 / 2 ^ 8, n % 2 ^ 8]

/-- `binary.BigEndian.PutUint64`: the 8 big-endian bytes of `n` as a
`uint64` (i.e. of `n % 2^64`). -/
def be64 (n : Nat) : List Byte :=
  [n % 2 ^ 64 / 2 ^ 56, n % 2 ^ 56 / 2 ^ 48, n % 2 ^ 48 / 2 ^ 40, n % 2 ^ 40 / 2 ^ 32,
   n % 2 ^ 32 / 2 ^ 24, n % 2 ^ 24 / 2 ^ 16, n % 2 ^ 16 / 2 ^ 8, n % 2 ^ 8]

/-- `binary.BigEndian.Uint32` over the 4-byte field. -/
def beU32 (b : List Byte) : Nat := b.foldl (fun acc x => acc * 256 + x) 0

/-- `binary.BigEndian.Uint64` over the 8-byte field. -/
def beU64 (b : List Byte) : Nat := b.foldl (fun acc x => acc * 256 + x) 0

/-- Go `int64(u)` for a `uint64` value `u : Nat` (two's complement). -/
def toInt64 (n : Nat) : Int :=
  if n % 2 ^ 64 < 2 ^ 63 then (n % 2 ^ 64 : Int) else (n % 2 ^ 64 : Int) - 2 ^ 64

/-- Go `uint64(i)` for an `int64` value `i : Int` (two's complement). -/
def toUint64 (i : Int) : Nat := (i % (2 ^ 64 : Int)).toNat

/-! ## The AEAD instance

`aes.NewCipher(key)` + `cipher.NewGCM(block)` live in the Go standard
library, outside this repository.  The resulting AEAD instance for the
32-byte key is abstracted as a pair of functions; its correctness contract
(the standard-library guarantee) is assumed as explicit hypotheses in the
theorems that need it. -/

/-- The AES-256-GCM instance built from one 32-byte key:
`sealAEAD nonce plaintext aad` models `gcm.Seal(nil, nonce, plaintext, aad)`
and `openAEAD nonce ciphertext aad` models
`gcm.Open(nil, nonce, ciphertext, aad)` (`none` = authentication error). -/
structure GCMModel where
  sealAEAD : List Byte → List Byte → List Byte → List Byte
  openAEAD : List Byte → List Byte → List Byte → Option (List Byte)

/-- The standard-library AEAD contract: `Open` inverts `Seal` under the same
nonce and AAD, and `Seal` output is plaintext length plus the 16-byte tag. -/
def GCMModel.Correct (g : GCMModel) : Prop :=
  (∀ nonce pt aad, g.openAEAD nonce (g.sealAEAD nonce pt aad) aad = some pt) ∧
  (∀ nonce pt aad, (g.sealAEAD nonce pt aad).length = pt.length + TagSize)

/-! ## Per-chunk nonce derivation

Both `EncryptStream` and `DecryptStream` build the chunk nonce by copying
the 12-byte base nonce and overwriting its last 4 bytes with
`binary.BigEndian.PutUint32(nonce[8:], chunkCounter)`. -/

/-- The chunk nonce: `copy(nonce, baseNonce); PutUint32(nonce[8:], ctr)`. -/
def nonceFor (baseNonce : List Byte) (ctr : Nat) : List Byte :=
  baseNonce.take 8 ++ be32 ctr

/-! ## Errors -/

/-- Errors produced by `NewEncryptor` / `EncryptStream`. -/
inductive EncErr where
  | unsupportedAlgorithm
  | invalidChunkSize
  | invalidKeyLength
  | nonceOverflow
  deriving DecidableEq, Repr

/-- Errors produced by `NewDecryptor` / `DecryptStream`. -/
inductive DecErr where
  | unsupportedAlgorithm
  | invalidKeyLength
  | readMagic
  | badMagic
  | readVersion
  | badVersion
  | readNonce
  | readSize
  | readChunkSize
  | chunkSize
  | readChunk
  | authFailure
  | truncated
  deriving DecidableEq, Repr

/-! ## Configuration and constructors (`options.go`, `NewEncryptor`, `NewDecryptor`) -/

/-- `Config` from `options.go`.  The progress callback itself is opaque; the
model records whether one is configured and logs its invocations. -/
structure Config where
  chunkSize : Nat := DefaultChunkSize
  progressSet : Bool := false
  checksum : Bool := false
  algorithm : Nat := AlgorithmAESGCM

/-- `WithProgress(cb)`. -/
def withProgress (cfg : Config) : Config := { cfg with progressSet := true }

/-- `WithChecksum(enable)`. -/
def withChecksum (enable : Bool) (cfg : Config) : Config := { cfg with checksum := enable }

/-- `WithAlgorithm(alg)`. -/
def withAlgorithm (alg : Nat) (cfg : Config) : Config := { cfg with algorithm := alg }

/-- The `Encryptor` struct: key bytes held in the `SecureBuffer`, resolved
configuration, and the `startChunkCounter` test hook (zero in normal use). -/
structure Encryptor where
  key : List Byte
  chunkSize : Nat
  progressSet : Bool
  checksum : Bool
  algorithm : Nat
  startChunkCounter : Nat := 0

/-- The `Decryptor` struct (same fields, no counter hook). -/
structure Decryptor where
  key : List Byte
  chunkSize : Nat
  progressSet : Bool
  checksum : Bool
  algorithm : Nat

/-- `NewEncryptor(key, opts...)` after the options have been folded into
`cfg`: key must be exactly 32 bytes and the chunk size within
`[MinChunkSize, MaxChunkSize]`; the algorithm is *not* validated here. -/
def newEncryptor (key : List Byte) (cfg : Config) : Option Encryptor :=
  if key.length ≠ 32 then none
  else if cfg.chunkSize < MinChunkSize ∨ cfg.chunkSize > MaxChunkSize then none
  else some ⟨key, cfg.chunkSize, cfg.progressSet, cfg.checksum, cfg.algorithm, 0⟩

/-- `NewDecryptor(key, opts...)`, mirroring `newEncryptor`. -/
def newDecryptor (key : List Byte) (cfg : Config) : Option Decryptor :=
  if key.length ≠ 32 then none
  else if cfg.chunkSize < MinChunkSize ∨ cfg.chunkSize > MaxChunkSize then none
  else some ⟨key, cfg.chunkSize, cfg.progressSet, cfg.checksum, cfg.algorithm⟩

/-! ## The encryption chunk loop (`EncryptStream`, lines 207-256)

Each loop iteration reads up to `chunkSize` source bytes; a non-empty read
is sealed and framed.  The model returns the frames written so far, the
recorded progress fractions, and an optional error.  `fuel` bounds the
iteration count; every iteration consumes at least one byte when
`chunkSize ≥ 1`, so `fuel = p.length` is always sufficient. -/

/-- Result of a streaming operation: bytes written to the sink, progress
fractions reported, optional error (on error the partial sink stands). -/
structure StreamOut (ε : Type) where
  out : List Byte
  events : List ℚ
  err : Option ε
  deriving DecidableEq, Repr

/-- The `EncryptStream` chunk loop.  State: `ctr` is the `uint32` chunk
counter, `written` the running plaintext byte count, `progressNext` the next
progress threshold (`int64`).  The order of operations per chunk follows the
source: build nonce from `ctr`, increment, abort on wrap to 0, seal, write
the 4-byte frame length then the ciphertext, update `written`, then fire the
progress callback when configured, `totalSize > 0`, and
`written ≥ progressNext` (stepping `progressNext` by `totalSize / 5`). -/
def encryptChunksAux (g : GCMModel) (bn aad : List Byte) (cs : Nat)
    (progressSet : Bool) (totalSize : Int) :
    Nat → Nat → Nat → Int → List Byte → StreamOut EncErr
  | _, _, _, _, [] => ⟨[], [], none⟩
  | 0, _, _, _, _ :: _ => ⟨[], [], none⟩
  | fuel + 1, ctr, written, progressNext, x :: xs =>
    let chunk := (x :: xs).take cs
    let nonce := nonceFor bn ctr
    let ctr' := (ctr + 1) % 2 ^ 32
    if ctr' = 0 then ⟨[], [], some .nonceOverflow⟩
    else
      let ct := g.sealAEAD nonce chunk aad
      let frame := be32 ct.length ++ ct
      let written' := written + chunk.length
      let fire := progressSet && decide (0 < totalSize) && decide (progressNext ≤ (written' : Int))
      let ev : List ℚ := if fire then [(written' : ℚ) / (totalSize : ℚ)] else []
      let pn' := if fire then progressNext + totalSize / 5 else progressNext
      let rest := encryptChunksAux g bn aad cs progressSet totalSize fuel ctr' written' pn'
        ((x :: xs).drop cs)
      ⟨frame ++ rest.out, ev ++ rest.events, rest.err⟩

/-- `EncryptStream(ctx, src, dst, sizeHint...)`.  `g` is the AES-256-GCM
instance for the encryptor's key, `bn` the freshly generated 12-byte base
nonce (randomness is a parameter), `sizeHint` the optional variadic hint,
`p` the source bytes.  Validation order as in the source: algorithm, chunk
size, key length; then header (magic, version, nonce, 8-byte big-endian
size); then the chunk loop; then the unconditional final `progress(1.0)` on
success. -/
def encryptStream (g : GCMModel) (e : Encryptor) (bn : List Byte)
    (sizeHint : Option Int) (p : List Byte) : StreamOut EncErr :=
  if ¬ isSupported e.algorithm then ⟨[], [], some .unsupportedAlgorithm⟩
  else if e.chunkSize = 0 ∨ e.chunkSize > MaxChunkSize then ⟨[], [], some .invalidChunkSize⟩
  else if e.key.length ≠ 32 then ⟨[], [], some .invalidKeyLength⟩
  else
    let totalSize : Int := sizeHint.getD 0
    let sizeBytes := be64 (toUint64 totalSize)
    let aad := sizeBytes
    let header := MagicBytes ++ [Version] ++ bn ++ sizeBytes
    let r := encryptChunksAux g bn aad e.chunkSize e.progressSet totalSize
      p.length e.startChunkCounter 0 0 p
    match r.err with
    | some er => ⟨header ++ r.out, r.events, some er⟩
    | none =>
      let finalEv : List ℚ := if e.progressSet then [(1 : ℚ)] else []
      ⟨header ++ r.out, r.events ++ finalEv, none⟩

/-! ## The decryption chunk loop (`DecryptStream` loop) -/

/-- The `DecryptStream` chunk loop over the remaining stream `s`.  A clean
EOF (empty stream at the 4-byte length read) ends the loop; a partial
length field is a read error.  The decoded `uint32` length is rejected when
`0` or above `MaxChunkSize + TagSize`; then the body is read (short body =
read error), the chunk nonce derived from the running counter exactly as in
encryption, and the chunk opened; plaintext is written and progress fired on
every chunk when configured and `totalSize > 0`.  Each continuing iteration
consumes at least 5 bytes, so `fuel = s.length` is always sufficient. -/
def decryptChunksAux (g : GCMModel) (bn aad : List Byte)
    (progressSet : Bool) (totalSize : Int) :
    Nat → Nat → Nat → List Byte → StreamOut DecErr
  | _, _, _, [] => ⟨[], [], none⟩
  | 0, _, _, _ :: _ => ⟨[], [], none⟩
  | fuel + 1, ctr, written, s@(_ :: _) =>
    if s.length < 4 then ⟨[], [], some .readChunkSize⟩
    else
      let len := beU32 (s.take 4)
      if len = 0 ∨ len > MaxChunkSize + TagSize then ⟨[], [], some .chunkSize⟩
      else if (s.drop 4).length < len then ⟨[], [], some .readChunk⟩
      else
        let ct := (s.drop 4).take len
        let nonce := nonceFor bn ctr
        let ctr' := (ctr + 1) % 2 ^ 32
        match g.openAEAD nonce ct aad with
        | none => ⟨[], [], some .authFailure⟩
        | some pt =>
          let written' := written + pt.length
          let ev : List ℚ :=
            if progressSet && decide (0 < totalSize) then [(written' : ℚ) / (totalSize : ℚ)]
            else []
          let rest := decryptChunksAux g bn aad progressSet totalSize fuel ctr' written'
            ((s.drop 4).drop len)
          ⟨pt ++ rest.out, ev ++ rest.events, rest.err⟩

/-- `DecryptStream(ctx, src, dst, sizeHint...)`.  `g` is the AES-256-GCM
instance for the decryptor's key, `s` the whole ciphertext stream.
Validation order as in the source: algorithm, key length, magic, version,
base nonce, 8-byte size field (`aad := sizeBytes`);
`totalSize = int64(declared)` when the declared `uint64` is nonzero, else
the size hint when given, else 0; then the chunk loop; then the truncation
check `totalSize > 0 && written != totalSize`; then the final
`progress(1.0)`. -/
def decryptStream (g : GCMModel) (d : Decryptor) (sizeHint : Option Int)
    (s : List Byte) : StreamOut DecErr :=
  if ¬ isSupported d.algorithm then ⟨[], [], some .unsupportedAlgorithm⟩
  else if d.key.length ≠ 32 then ⟨[], [], some .invalidKeyLength⟩
  else if s.length < 3 then ⟨[], [], some .readMagic⟩
  else if s.take 3 ≠ MagicBytes then ⟨[], [], some .badMagic⟩
  else if (s.drop 3).length < 1 then ⟨[], [], some .readVersion⟩
  else if (s.drop 3).take 1 ≠ [Version] then ⟨[], [], some .badVersion⟩
  else if (s.drop 4).length < NonceSize then ⟨[], [], some .readNonce⟩
  else
    let bn := (s.drop 4).take NonceSize
    if (s.drop 16).length < 8 then ⟨[], [], some .readSize⟩
    else
      let sizeBytes := (s.drop 16).take 8
      let aad := sizeBytes
      let fileSizeUint64 := beU64 sizeBytes
      let totalSize : Int :=
        if fileSizeUint64 > 0 then toInt64 fileSizeUint64 else sizeHint.getD 0
      let body := s.drop 24
      let r := decryptChunksAux g bn aad d.progressSet totalSize body.length 0 0 body
      match r.err with
      | some er => ⟨r.out, r.events, some er⟩
      | none =>
        if totalSize > 0 ∧ (r.out.length : Int) ≠ totalSize then
          ⟨r.out, r.events, some .truncated⟩
        else
          let finalEv : List ℚ := if d.progressSet then [(1 : ℚ)] else []
          ⟨r.out, r.events ++ finalEv, none⟩

/-! ## Chunk decomposition (specification-side helpers)

These definitions describe the intended shape of the chunk stream; theorems
relate the loop models above to them. -/

/-- The successive reads of the source: `p` split into maximal pieces of at
most `cs` bytes (`fuel = p.length` suffices when `cs ≥ 1`). -/
def chunksOfAux (cs : Nat) : Nat → List Byte → List (List Byte)
  | _, [] => []
  | 0, _ :: _ => []
  | fuel + 1, x :: xs => (x :: xs).take cs :: chunksOfAux cs fuel ((x :: xs).drop cs)

/-- `chunksOf cs p`: the chunk decomposition of the source `p`. -/
def chunksOf (cs : Nat) (p : List Byte) : List (List Byte) :=
  chunksOfAux cs p.length p

/-- The framed ciphertext stream that encryption is expected to produce for
the given chunks, sealing chunk `i` with `nonceFor bn (ctr + i)`. -/
def encFrames (g : GCMModel) (bn aad : List Byte) (ctr : Nat) :
    List (List Byte) → List Byte
  | [] => []
  | c :: rest =>
    be32 (g.sealAEAD (nonceFor bn ctr) c aad).length ++ g.sealAEAD (nonceFor bn ctr) c aad ++
      encFrames g bn aad (ctr + 1) rest

/-- A framed stream built from the given ciphertext chunks. -/
def frames : List (List Byte) → List Byte
  | [] => []
  | ct :: rest => be32 ct.length ++ ct ++ frames rest

/-- The plaintexts that decryption is expected to recover from the given
ciphertext chunks, opening chunk `i` with `nonceFor bn (ctr + i)`
(`none` when some chunk fails authentication). -/
def decOutputs (g : GCMModel) (bn aad : List Byte) (ctr : Nat) :
    List (List Byte) → Option (List Byte)
  | [] => some []
  | ct :: rest => do
    let pt ← g.openAEAD (nonceFor bn ctr) ct aad
    let out ← decOutputs g bn aad (ctr + 1) rest
    some (pt ++ out)

/-! ## SecureBuffer (`internal/crypto/secure_buffer.go`)

Memory locking (`secure.LockMemory` / `UnlockMemory`) is a best-effort OS
interaction with no observable byte-level effect and is not modelled; the
mutex serializes access and is not needed in a sequential model. -/

/-- `SecureBuffer`: the owned byte buffer and the `zeroed` flag. -/
structure SecureBuffer where
  buf : List Byte
  zeroed : Bool
  deriving DecidableEq, Repr

/-- `NewSecureBufferFromBytes(b)`: copies `b` into owned storage. -/
def NewSecureBufferFromBytes (b : List Byte) : SecureBuffer := ⟨b, false⟩

/-- `SecureBuffer.Data()`: returns the buffer contents. -/
def SecureBuffer.data (s : SecureBuffer) : List Byte := s.buf

/-- `SecureBuffer.Destroy()`: on first call overwrites every byte with zero
(`secure.Zero`) and sets the flag; later calls are no-ops. -/
def SecureBuffer.destroy (s : SecureBuffer) : SecureBuffer :=
  if s.zeroed then s else ⟨s.buf.map fun _ => 0, true⟩

/-! ## Key derivation validation (`key.go`)

The key bytes themselves are produced by `golang.org/x/crypto`
(`pbkdf2.Key`, `argon2.IDKey`), outside this repository; once validation
passes those calls cannot fail.  The model therefore returns the validation
outcome: `none` means the derivation proceeds and succeeds. -/

/-- `MinPBKDF2Iterations = 210000`. -/
def MinPBKDF2Iterations : Nat := 210000

/-- `MinArgon2Memory = 19 * 1024`. -/
def MinArgon2Memory : Nat := 19 * 1024

/-- Validation errors of `DeriveKeyPBKDF2` / `DeriveKeyArgon2`. -/
inductive KeyDerivErr where
  | emptyPassword
  | shortSalt
  | lowIterations
  | lowTime
  | lowMemory
  | lowThreads
  | badKeyLen
  deriving DecidableEq, Repr

/-- `DeriveKeyPBKDF2(password, salt, iterations, keyLen)` validation
(`iterations` and `keyLen` are Go `int`, hence `Int`); `none` = the key is
derived and returned. -/
def DeriveKeyPBKDF2 (password salt : List Byte) (iterations keyLen : Int) :
    Option KeyDerivErr :=
  if password.length = 0 then some .emptyPassword
  else if salt.length < 16 then some .shortSalt
  else if iterations < (MinPBKDF2Iterations : Int) then some .lowIterations
  else if keyLen ≤ 0 ∨ keyLen > 128 then some .badKeyLen
  else none

/-- `DeriveKeyArgon2(password, salt, time, memory, threads, keyLen)`
validation (`time`, `memory`, `keyLen` are `uint32` and `threads` a `uint8`,
hence `Nat`); `none` = the key is derived and returned. -/
def DeriveKeyArgon2 (password salt : List Byte) (time memory threads keyLen : Nat) :
    Option KeyDerivErr :=
  if password.length = 0 then some .emptyPassword
  else if salt.length < 16 then some .shortSalt
  else if time < 1 then some .lowTime
  else if memory < MinArgon2Memory then some .lowMemory
  else if threads < 1 then some .lowThreads
  else if keyLen = 0 ∨ keyLen > 128 then some .badKeyLen
  else none

/-! ## An executable AEAD stand-in

Used only to instantiate witnesses and counterexamples: plaintext followed
by a 16-byte all-zero tag.  It satisfies the `GCMModel.Correct` contract. -/

/-- Stand-in `Seal`: append a 16-byte zero tag. -/
def toySeal (_nonce pt _aad : List Byte) : List Byte := pt ++ List.replicate TagSize 0

/-- Stand-in `Open`: check length and the zero tag, strip it. -/
def toyOpen (_nonce ct _aad : List Byte) : Option (List Byte) :=
  if TagSize ≤ ct.length ∧ ct.drop (ct.length - TagSize) = List.replicate TagSize 0 then
    some (ct.take (ct.length - TagSize))
  else none

/-- The stand-in AEAD instance. -/
def toyGCM : GCMModel := ⟨toySeal, toyOpen⟩

/-! ## Codec lemmas -/

theorem be32_length (n : Nat) : (be32 n).length = 4 := rfl

theorem be64_length (n : Nat) : (be64 n).length = 8 := rfl

theorem beU32_be32 (n : Nat) : beU32 (be32 n) = n % 2 ^ 32 := by
  simp only [beU32, be32, List.foldl]
  omega

theorem beU64_be64 (n : Nat) : beU64 (be64 n) = n % 2 ^ 64 := by
  simp only [beU64, be64, List.foldl]
  omega

theorem toUint64_zero : toUint64 0 = 0 := rfl

theorem toUint64_ofNat (n : Nat) (h : n < 2 ^ 64) : toUint64 (n : Int) = n := by
  simp only [toUint64]
  rw [Int.emod_eq_of_lt (by positivity) (by exact_mod_cast h)]
  exact Int.toNat_natCast n

/-! ## Chunk-decomposition lemmas -/

theorem chunksOfAux_join (cs : Nat) (hcs : 1 ≤ cs) :
    ∀ fuel p, p.length ≤ fuel → (chunksOfAux cs fuel p).flatten = p := by
  intro fuel
  induction fuel with
  | zero =>
    intro p hp
    cases p with
    | nil => simp [chunksOfAux]
    | cons x xs => simp at hp
  | succ n ih =>
    intro p hp
    cases p with
    | nil => simp [chunksOfAux]
    | cons x xs =>
      have hdrop : ((x :: xs).drop cs).length ≤ n := by
        simp only [List.length_drop, List.length_cons] at *
        omega
      simp only [chunksOfAux, List.flatten_cons, ih _ hdrop]
      exact List.take_append_drop cs (x :: xs)

theorem chunksOf_join (cs : Nat) (hcs : 1 ≤ cs) (p : List Byte) :
    (chunksOf cs p).flatten = p :=
  chunksOfAux_join cs hcs p.length p le_rfl

theorem chunksOfAux_mem_bounds (cs : Nat) (hcs : 1 ≤ cs) :
    ∀ fuel p c, c ∈ chunksOfAux cs fuel p → 0 < c.length ∧ c.length ≤ cs := by
  intro fuel
  induction fuel with
  | zero =>
    intro p c hc
    cases p <;> simp [chunksOfAux] at hc
  | succ n ih =>
    intro p c hc
    cases p with
    | nil => simp [chunksOfAux] at hc
    | cons x xs =>
      simp only [chunksOfAux, List.mem_cons] at hc
      rcases hc with h | h
      · subst h
        constructor
        · simp only [List.length_take, List.length_cons]
          omega
        · simp only [List.length_take]
          omega
      · exact ih _ _ h

theorem chunksOf_mem_bounds (cs : Nat) (hcs : 1 ≤ cs) (p : List Byte) (c : List Byte)
    (hc : c ∈ chunksOf cs p) : 0 < c.length ∧ c.length ≤ cs :=
  chunksOfAux_mem_bounds cs hcs p.length p c hc

theorem chunksOfAux_one_length :
    ∀ fuel p, p.length ≤ fuel → (chunksOfAux 1 fuel p).length = p.length := by
  intro fuel
  induction fuel with
  | zero =>
    intro p hp
    cases p with
    | nil => simp [chunksOfAux]
    | cons x xs => simp at hp
  | succ n ih =>
    intro p hp
    cases p with
    | nil => simp [chunksOfAux]
    | cons x xs =>
      have hdrop : ((x :: xs).drop 1).length ≤ n := by
        simp only [List.length_drop, List.length_cons] at *
        omega
      simp only [chunksOfAux, List.length_cons, ih _ hdrop, List.length_drop,
        List.length_cons]
      omega

theorem chunksOf_one_length (p : List Byte) : (chunksOf 1 p).length = p.length :=
  chunksOfAux_one_length p.length p le_rfl

/-! ## Sealed-chunk helpers -/

/-- The ciphertext chunks encryption produces: chunk `i` sealed with
`nonceFor bn (ctr + i)`. -/
def sealChunks (g : GCMModel) (bn aad : List Byte) (ctr : Nat) :
    List (List Byte) → List (List Byte)
  | [] => []
  | c :: rest => g.sealAEAD (nonceFor bn ctr) c aad :: sealChunks g bn aad (ctr + 1) rest

theorem encFrames_eq_frames (g : GCMModel) (bn aad : List Byte) :
    ∀ chunks ctr, encFrames g bn aad ctr chunks = frames (sealChunks g bn aad ctr chunks) := by
  intro chunks
  induction chunks with
  | nil => intro ctr; rfl
  | cons c rest ih =>
    intro ctr
    simp only [encFrames, frames, sealChunks, ih (ctr + 1), List.append_assoc]

theorem decOutputs_sealChunks (g : GCMModel) (bn aad : List Byte)
    (hg : ∀ nonce pt a, g.openAEAD nonce (g.sealAEAD nonce pt a) a = some pt) :
    ∀ chunks ctr, decOutputs g bn aad ctr (sealChunks g bn aad ctr chunks) =
      some chunks.flatten := by
  intro chunks
  induction chunks with
  | nil => intro ctr; rfl
  | cons c rest ih =>
    intro ctr
    simp only [sealChunks, decOutputs, hg, Option.bind_eq_bind, Option.some_bind,
      ih (ctr + 1), List.flatten]

theorem sealChunks_mem_length (g : GCMModel) (bn aad : List Byte)
    (hg : ∀ nonce pt a, (g.sealAEAD nonce pt a).length = pt.length + TagSize) :
    ∀ chunks ctr ct, ct ∈ sealChunks g bn aad ctr chunks →
      ∃ c ∈ chunks, ct.length = c.length + TagSize := by
  intro chunks
  induction chunks with
  | nil => intro ctr ct hct; simp [sealChunks] at hct
  | cons c rest ih =>
    intro ctr ct hct
    simp only [sealChunks, List.mem_cons] at hct
    rcases hct with h | h
    · exact ⟨c, List.mem_cons_self c rest, by rw [h, hg]⟩
    · obtain ⟨c', hc', hlen⟩ := ih (ctr + 1) ct h
      exact ⟨c', List.mem_cons_of_mem c hc', hlen⟩

theorem sealChunks_length (g : GCMModel) (bn aad : List Byte) :
    ∀ chunks ctr, (sealChunks g bn aad ctr chunks).length = chunks.length := by
  intro chunks
  induction chunks with
  | nil => intro ctr; rfl
  | cons c rest ih => intro ctr; simp [sealChunks, ih (ctr + 1)]

/-! ## Encryption-loop characterization -/

theorem encryptChunksAux_ok (g : GCMModel) (bn aad : List Byte) (cs : Nat)
    (ps : Bool) (ts : Int) (hcs : 1 ≤ cs) :
    ∀ fuel p ctr w pn, p.length ≤ fuel →
      ctr + (chunksOfAux cs fuel p).length < 2 ^ 32 →
      (encryptChunksAux g bn aad cs ps ts fuel ctr w pn p).out =
        encFrames g bn aad ctr (chunksOfAux cs fuel p) ∧
      (encryptChunksAux g bn aad cs ps ts fuel ctr w pn p).err = none := by
  intro fuel
  induction fuel with
  | zero =>
    intro p ctr w pn hp hctr
    cases p with
    | nil => exact ⟨rfl, rfl⟩
    | cons x xs => simp at hp
  | succ n ih =>
    intro p ctr w pn hp hctr
    cases p with
    | nil => exact ⟨rfl, rfl⟩
    | cons x xs =>
      simp only [chunksOfAux, List.length_cons] at hctr
      have hctr1 : ctr + 1 < 2 ^ 32 := by omega
      have hmod : (ctr + 1) % 2 ^ 32 = ctr + 1 := Nat.mod_eq_of_lt hctr1
      have hdrop : ((x :: xs).drop cs).length ≤ n := by
        simp only [List.length_drop, List.length_cons] at *
        omega
      have hlen : ctr + 1 + (chunksOfAux cs n ((x :: xs).drop cs)).length < 2 ^ 32 := by
        omega
      have hrec := fun w' pn' => ih ((x :: xs).drop cs) (ctr + 1) w' pn' hdrop hlen
      simp only [encryptChunksAux, hmod, Nat.succ_ne_zero, if_false, chunksOfAux, encFrames]
      refine ⟨?_, ?_⟩
      · rw [(hrec _ _).1]
      · exact (hrec _ _).2

theorem encryptChunksAux_overflow (g : GCMModel) (bn aad : List Byte) (cs : Nat)
    (ps : Bool) (ts : Int) (hcs : 1 ≤ cs) :
    ∀ fuel p ctr w pn, p.length ≤ fuel → ctr < 2 ^ 32 →
      2 ^ 32 ≤ ctr + (chunksOfAux cs fuel p).length →
      (encryptChunksAux g bn aad cs ps ts fuel ctr w pn p).err = some .nonceOverflow := by
  intro fuel
  induction fuel with
  | zero =>
    intro p ctr w pn hp hctr hover
    cases p with
    | nil => simp [chunksOfAux] at hover; omega
    | cons x xs => simp at hp
  | succ n ih =>
    intro p ctr w pn hp hctr hover
    cases p with
    | nil => simp [chunksOfAux] at hover; omega
    | cons x xs =>
      simp only [chunksOfAux, List.length_cons] at hover
      by_cases hwrap : ctr + 1 = 2 ^ 32
      · have h0 : (ctr + 1) % 2 ^ 32 = 0 := by omega
        simp only [encryptChunksAux, h0]
        rfl
      · have hctr1 : ctr + 1 < 2 ^ 32 := by omega
        have hmod : (ctr + 1) % 2 ^ 32 = ctr + 1 := Nat.mod_eq_of_lt hctr1
        have hdrop : ((x :: xs).drop cs).length ≤ n := by
          simp only [List.length_drop, List.length_cons] at *
          omega
        simp only [encryptChunksAux, hmod, Nat.succ_ne_zero, if_false]
        exact ih ((x :: xs).drop cs) (ctr + 1) _ _ hdrop hctr1 (by omega)

theorem encryptChunksAux_events_nonpos (g : GCMModel) (bn aad : List Byte) (cs : Nat)
    (ps : Bool) (ts : Int) (hts : ts ≤ 0) :
    ∀ fuel (p : List Byte) (ctr w : Nat) (pn : Int),
      (encryptChunksAux g bn aad cs ps ts fuel ctr w pn p).events = [] := by
  intro fuel
  induction fuel with
  | zero => intro p ctr w pn; cases p <;> rfl
  | succ n ih =>
    intro p ctr w pn
    cases p with
    | nil => rfl
    | cons x xs =>
      have hdec : decide (0 < ts) = false := decide_eq_false (by omega)
      simp only [encryptChunksAux, hdec, Bool.and_false, Bool.false_and]
      split
      · rfl
      · simp [ih]

theorem encryptChunksAux_events_bounds (g : GCMModel) (bn aad : List Byte) (cs : Nat)
    (ps : Bool) (ts : Int) (hcs : 1 ≤ cs) :
    ∀ fuel (p : List Byte) (ctr w : Nat) (pn : Int), p.length ≤ fuel →
      ts = (w : Int) + p.length →
      ∀ q ∈ (encryptChunksAux g bn aad cs ps ts fuel ctr w pn p).events,
        0 ≤ q ∧ q ≤ 1 := by
  intro fuel
  induction fuel with
  | zero =>
    intro p ctr w pn hp hts q hq
    cases p with
    | nil => simp [encryptChunksAux] at hq
    | cons x xs => simp at hp
  | succ n ih =>
    intro p ctr w pn hp hts q hq
    cases p with
    | nil => simp [encryptChunksAux] at hq
    | cons x xs =>
      have hdrop : ((x :: xs).drop cs).length ≤ n := by
        simp only [List.length_drop, List.length_cons] at *
        omega
      have htake : ((x :: xs).take cs).length + ((x :: xs).drop cs).length =
          (x :: xs).length := by
        rw [← List.length_append, List.take_append_drop]
      have hts' : ts = ((w + ((x :: xs).take cs).length : Nat) : Int) +
          ((x :: xs).drop cs).length := by
        rw [hts]
        push_cast
        push_cast at htake
        omega
      simp only [encryptChunksAux] at hq
      split at hq
      · simp at hq
      · split at hq
        case isTrue hfire =>
          dsimp only at hq
          rw [List.singleton_append, List.mem_cons] at hq
          rcases hq with hq | hq
          · subst hq
            have hpos : 0 < ts := by
              rcases Bool.and_eq_true .. |>.mp hfire with ⟨h1, _⟩
              rcases Bool.and_eq_true .. |>.mp h1 with ⟨_, h2⟩
              exact of_decide_eq_true h2
            have hle : ((w + ((x :: xs).take cs).length : Nat) : Int) ≤ ts := by
              rw [hts]
              have h1 : ((x :: xs).take cs).length ≤ (x :: xs).length :=
                le_of_eq_of_le rfl (by rw [List.length_take]; omega)
              push_cast
              omega
            refine ⟨by positivity, ?_⟩
            rw [div_le_one (by exact_mod_cast hpos)]
            calc ((w + ((x :: xs).take cs).length : Nat) : ℚ)
                = (((w + ((x :: xs).take cs).length : Nat) : Int) : ℚ) := by push_cast; ring
              _ ≤ ((ts : Int) : ℚ) := by exact_mod_cast hle
          · exact ih ((x :: xs).drop cs) _ _ _ hdrop hts' q hq
        case isFalse hfire =>
          dsimp only at hq
          rw [List.nil_append] at hq
          exact ih ((x :: xs).drop cs) _ _ _ hdrop hts' q hq

/-! ## Decryption-loop characterization -/

theorem decryptChunksAux_nil (g : GCMModel) (bn aad : List Byte) (ps : Bool) (ts : Int)
    (fuel ctr w : Nat) :
    decryptChunksAux g bn aad ps ts fuel ctr w [] = ⟨[], [], none⟩ := by
  cases fuel <;> rfl

theorem decryptChunksAux_frames (g : GCMModel) (bn aad : List Byte) (ps : Bool)
    (ts : Int) :
    ∀ (cts : List (List Byte)) (o : List Byte) (fuel ctr w : Nat),
      (frames cts).length ≤ fuel →
      (∀ ct ∈ cts, ct.length ≠ 0 ∧ ct.length ≤ MaxChunkSize + TagSize) →
      ctr + cts.length < 2 ^ 32 →
      decOutputs g bn aad ctr cts = some o →
      (decryptChunksAux g bn aad ps ts fuel ctr w (frames cts)).out = o ∧
      (decryptChunksAux g bn aad ps ts fuel ctr w (frames cts)).err = none := by
  intro cts
  induction cts with
  | nil =>
    intro o fuel ctr w hfuel hwf hctr ho
    simp only [decOutputs, Option.some.injEq] at ho
    subst ho
    rw [show frames [] = [] from rfl, decryptChunksAux_nil]
    exact ⟨rfl, rfl⟩
  | cons ct rest ih =>
    intro o fuel ctr w hfuel hwf hctr ho
    obtain ⟨hct0, hctMax⟩ := hwf ct (List.mem_cons_self ct rest)
    have hframes : frames (ct :: rest) = be32 ct.length ++ (ct ++ frames rest) := by
      simp [frames, List.append_assoc]
    have hslen : (frames (ct :: rest)).length = 4 + (ct.length + (frames rest).length) := by
      rw [hframes]
      simp [be32]
      omega
    -- the stream is nonempty and the fuel positive
    cases fuel with
    | zero => omega
    | succ m =>
      have hm : (frames rest).length ≤ m := by omega
      obtain ⟨x, xs, hcons⟩ :
          ∃ x xs, frames (ct :: rest) = x :: xs := by
        rw [hframes]
        exact ⟨_, _, rfl⟩
      have htake4 : (frames (ct :: rest)).take 4 = be32 ct.length := by
        rw [hframes]
        exact List.take_left' (be32_length ct.length)
      have hdrop4 : (frames (ct :: rest)).drop 4 = ct ++ frames rest := by
        rw [hframes]
        exact List.drop_left' (be32_length ct.length)
      have hdec : beU32 ((frames (ct :: rest)).take 4) = ct.length := by
        rw [htake4, beU32_be32]
        have : ct.length < 2 ^ 32 := by
          have : MaxChunkSize + TagSize < 2 ^ 32 := by norm_num [MaxChunkSize, TagSize]
          omega
        omega
      -- unfold one iteration
      rw [hcons]
      simp only [decryptChunksAux]
      rw [← hcons]
      rw [if_neg (by omega : ¬ (frames (ct :: rest)).length < 4)]
      rw [hdec]
      rw [if_neg (by omega : ¬ (ct.length = 0 ∨ ct.length > MaxChunkSize + TagSize))]
      rw [hdrop4]
      rw [if_neg (by simp : ¬ (ct ++ frames rest).length < ct.length)]
      rw [List.take_left' rfl, List.drop_left' rfl]
      -- the chunk opens successfully by hypothesis
      simp only [decOutputs, Option.bind_eq_bind] at ho
      cases hopen : g.openAEAD (nonceFor bn ctr) ct aad with
      | none => rw [hopen] at ho; simp at ho
      | some pt =>
        rw [hopen] at ho
        simp only [Option.some_bind] at ho
        cases ho2 : decOutputs g bn aad (ctr + 1) rest with
        | none => rw [ho2] at ho; simp at ho
        | some o' =>
          rw [ho2] at ho
          simp only [Option.some_bind, Option.some.injEq] at ho
          subst ho
          have hmod : (ctr + 1) % 2 ^ 32 = ctr + 1 := by
            simp only [List.length_cons] at hctr
            omega
          have hrec := ih o' m (ctr + 1) (w + pt.length) hm
            (fun c hc => hwf c (List.mem_cons_of_mem ct hc))
            (by simp only [List.length_cons] at hctr; omega) ho2
          rw [hmod]
          exact ⟨by simp [hrec.1], by simp [hrec.2]⟩

/-! ## Stream-level unfoldings -/

theorem encryptStream_eq (g : GCMModel) (e : Encryptor) (bn : List Byte)
    (hint : Option Int) (p : List Byte) (halg : isSupported e.algorithm = true)
    (hcs0 : e.chunkSize ≠ 0) (hcsM : e.chunkSize ≤ MaxChunkSize)
    (hkey : e.key.length = 32) :
    encryptStream g e bn hint p =
      (let r := encryptChunksAux g bn (be64 (toUint64 (hint.getD 0))) e.chunkSize
        e.progressSet (hint.getD 0) p.length e.startChunkCounter 0 0 p
      match r.err with
      | some er =>
        ⟨(MagicBytes ++ [Version] ++ bn ++ be64 (toUint64 (hint.getD 0))) ++ r.out,
          r.events, some er⟩
      | none =>
        ⟨(MagicBytes ++ [Version] ++ bn ++ be64 (toUint64 (hint.getD 0))) ++ r.out,
          r.events ++ (if e.progressSet then [(1 : ℚ)] else []), none⟩) := by
  unfold encryptStream
  rw [if_neg (by simp [halg]), if_neg (by omega), if_neg (by simp [hkey])]

theorem decryptStream_parse (g : GCMModel) (d : Decryptor) (hint : Option Int)
    (bn sizeB body : List Byte) (halg : isSupported d.algorithm = true)
    (hkey : d.key.length = 32) (hbn : bn.length = 12) (hsz : sizeB.length = 8) :
    decryptStream g d hint (MagicBytes ++ [Version] ++ bn ++ sizeB ++ body) =
      (let ts : Int := if beU64 sizeB > 0 then toInt64 (beU64 sizeB) else hint.getD 0
      let r := decryptChunksAux g bn sizeB d.progressSet ts body.length 0 0 body
      match r.err with
      | some er => ⟨r.out, r.events, some er⟩
      | none =>
        if ts > 0 ∧ (r.out.length : Int) ≠ ts then ⟨r.out, r.events, some .truncated⟩
        else ⟨r.out, r.events ++ (if d.progressSet then [(1 : ℚ)] else []), none⟩) := by
  set s := MagicBytes ++ [Version] ++ bn ++ sizeB ++ body with hs
  have hslen : s.length = 24 + body.length := by
    simp [hs, MagicBytes, hbn, hsz]
    omega
  have h3 : s.drop 3 = [Version] ++ bn ++ sizeB ++ body := by
    rw [hs, show MagicBytes ++ [Version] ++ bn ++ sizeB ++ body =
      MagicBytes ++ ([Version] ++ bn ++ sizeB ++ body) by simp [List.append_assoc]]
    exact List.drop_left' (by simp [MagicBytes])
  have ht3 : s.take 3 = MagicBytes := by
    rw [hs, show MagicBytes ++ [Version] ++ bn ++ sizeB ++ body =
      MagicBytes ++ ([Version] ++ bn ++ sizeB ++ body) by simp [List.append_assoc]]
    exact List.take_left' (by simp [MagicBytes])
  have h4 : s.drop 4 = bn ++ sizeB ++ body := by
    rw [show (4 : Nat) = 3 + 1 by rfl, ← List.drop_drop, h3,
      show [Version] ++ bn ++ sizeB ++ body = [Version] ++ (bn ++ sizeB ++ body) by
        simp [List.append_assoc]]
    exact List.drop_left' (by simp)
  have ht1 : (s.drop 3).take 1 = [Version] := by
    rw [h3, show [Version] ++ bn ++ sizeB ++ body = [Version] ++ (bn ++ sizeB ++ body) by
      simp [List.append_assoc]]
    exact List.take_left' (by simp)
  have h16 : s.drop 16 = sizeB ++ body := by
    rw [show (16 : Nat) = 4 + 12 by rfl, ← List.drop_drop, h4,
      show bn ++ sizeB ++ body = bn ++ (sizeB ++ body) by simp [List.append_assoc]]
    exact List.drop_left' hbn
  have ht12 : (s.drop 4).take 12 = bn := by
    rw [h4, show bn ++ sizeB ++ body = bn ++ (sizeB ++ body) by simp [List.append_assoc]]
    exact List.take_left' hbn
  have h24 : s.drop 24 = body := by
    rw [show (24 : Nat) = 16 + 8 by rfl, ← List.drop_drop, h16]
    exact List.drop_left' hsz
  have ht8 : (s.drop 16).take 8 = sizeB := by
    rw [h16]
    exact List.take_left' hsz
  unfold decryptStream
  rw [if_neg (by simp [halg]), if_neg (by simp [hkey]), if_neg (by omega), if_neg (by
    rw [ht3]; simp), if_neg (by rw [h3]; simp), if_neg (by rw [ht1]; simp)]
  simp only [NonceSize]
  rw [if_neg (by rw [h4]; simp only [List.length_append, hbn, hsz]; omega)]
  rw [ht12]
  rw [if_neg (by rw [h16]; simp only [List.length_append, hsz]; omega)]
  rw [ht8, h24]

/-! ## Stand-in AEAD correctness -/

theorem toyGCM_correct : toyGCM.Correct := by
  constructor
  · intro nonce pt aad
    have hlen : (pt ++ List.replicate TagSize 0).length = pt.length + TagSize := by
      simp
    simp only [toyGCM, toySeal, toyOpen, hlen, Nat.add_sub_cancel]
    rw [if_pos ⟨by omega, List.drop_left' rfl⟩, List.take_left' rfl]
  · intro nonce pt aad
    simp [toyGCM, toySeal]

/-! ## Claim theorems -/

/-- C8: `DeriveKeyPBKDF2` errors exactly when the password is empty, the
salt is shorter than 16 bytes, the iteration count is below 210000, or the
key length is outside `[1, 128]`; `DeriveKeyArgon2` errors exactly when the
password is empty, the salt is shorter than 16 bytes, the time cost is below
1, the memory cost is below 19456 KiB, the thread count is below 1, or the
key length is outside `[1, 128]`.  All checks precede any key computation
(the model returns before the derivation call). -/
theorem c8_kdf_validation :
    ∀ (password salt : List Byte) (iterations keyLen : Int)
      (time memory threads kl : Nat),
      (DeriveKeyPBKDF2 password salt iterations keyLen ≠ none ↔
        (password.length = 0 ∨ salt.length < 16 ∨ iterations < 210000 ∨
          keyLen < 1 ∨ keyLen > 128)) ∧
      (DeriveKeyArgon2 password salt time memory threads kl ≠ none ↔
        (password.length = 0 ∨ salt.length < 16 ∨ time < 1 ∨ memory < 19456 ∨
          threads < 1 ∨ kl < 1 ∨ kl > 128)) := by
  intro password salt iterations keyLen time memory threads kl
  constructor
  · simp only [DeriveKeyPBKDF2, MinPBKDF2Iterations]
    split_ifs <;>
      simp only [ne_eq, Option.some_ne_none, not_false_eq_true, true_iff,
        eq_self_iff_true, not_true_eq_false, false_iff, not_or] <;>
      omega
  · simp only [DeriveKeyArgon2, MinArgon2Memory]
    split_ifs <;>
      simp only [ne_eq, Option.some_ne_none, not_false_eq_true, true_iff,
        eq_self_iff_true, not_true_eq_false, false_iff, not_or] <;>
      omega

/-- C10: after any positive number of `Destroy` calls, `Data()` still
returns a slice of the original length whose bytes are all zero (it is
neither `nil` nor an error). -/
theorem c10_secure_buffer_destroy :
    ∀ (b : List Byte) (k : Nat), 0 < k →
      ((SecureBuffer.destroy)^[k] (NewSecureBufferFromBytes b)).data =
        List.replicate b.length 0 := by
  have hfix : ∀ (z : List Byte) (j : Nat),
      (SecureBuffer.destroy)^[j] ⟨z, true⟩ = ⟨z, true⟩ := by
    intro z j
    induction j with
    | zero => rfl
    | succ n ih =>
      rw [Function.iterate_succ_apply,
        show SecureBuffer.destroy ⟨z, true⟩ = ⟨z, true⟩ from rfl, ih]
  intro b k hk
  cases k with
  | zero => omega
  | succ j =>
    rw [Function.iterate_succ_apply,
      show SecureBuffer.destroy (NewSecureBufferFromBytes b) =
        ⟨b.map fun _ => 0, true⟩ from rfl, hfix]
    show b.map (fun _ => 0) = List.replicate b.length 0
    induction b with
    | nil => rfl
    | cons x xs ih => simp [ih, List.replicate_succ]

/-- C10 witness: three `Destroy` calls on a buffer built from `[5, 7, 9]`
leave `Data()` returning `[0, 0, 0]`. -/
theorem c10_secure_buffer_destroy_witness :
    0 < 3 ∧ ((SecureBuffer.destroy)^[3] (NewSecureBufferFromBytes [5, 7, 9])).data =
      List.replicate 3 0 :=
  ⟨by decide, c10_secure_buffer_destroy [5, 7, 9] 3 (by decide)⟩

/-- C7: with a 32-byte key and a valid chunk size, any algorithm selector
other than AES-256-GCM is accepted by `NewEncryptor` and `NewDecryptor`, and
every subsequent `EncryptStream`/`DecryptStream` call fails with the
unsupported-algorithm error without writing any output (for every source
stream alike, so before any bytes are read or written). -/
theorem c7_unsupported_algorithm :
    ∀ (key : List Byte) (cfg : Config), key.length = 32 →
      cfg.algorithm ≠ AlgorithmAESGCM →
      MinChunkSize ≤ cfg.chunkSize → cfg.chunkSize ≤ MaxChunkSize →
      (∃ e, newEncryptor key cfg = some e ∧
        ∀ g bn hint p, encryptStream g e bn hint p = ⟨[], [], some .unsupportedAlgorithm⟩) ∧
      (∃ d, newDecryptor key cfg = some d ∧
        ∀ g hint s, decryptStream g d hint s = ⟨[], [], some .unsupportedAlgorithm⟩) := by
  intro key cfg hkey halg hmin hmax
  have hunsupported : isSupported cfg.algorithm = false := by
    simp only [isSupported, beq_eq_false_iff_ne, ne_eq]
    exact halg
  constructor
  · refine ⟨⟨key, cfg.chunkSize, cfg.progressSet, cfg.checksum, cfg.algorithm, 0⟩, ?_, ?_⟩
    · unfold newEncryptor
      rw [if_neg (by omega), if_neg (by omega)]
    · intro g bn hint p
      unfold encryptStream
      rw [if_pos (by simp [hunsupported])]
  · refine ⟨⟨key, cfg.chunkSize, cfg.progressSet, cfg.checksum, cfg.algorithm⟩, ?_, ?_⟩
    · unfold newDecryptor
      rw [if_neg (by omega), if_neg (by omega)]
    · intro g hint s
      unfold decryptStream
      rw [if_pos (by simp [hunsupported])]

/-- C7 witness: a ChaCha20-Poly1305 selector (value 2) with a 32-byte key
constructs fine, and the streaming calls fail with the
unsupported-algorithm error on a concrete input. -/
theorem c7_unsupported_algorithm_witness :
    (List.replicate 32 0).length = 32 ∧
    AlgorithmChaCha20Poly1305 ≠ AlgorithmAESGCM ∧
    ((∃ e, newEncryptor (List.replicate 32 0)
        ⟨DefaultChunkSize, false, false, AlgorithmChaCha20Poly1305⟩ = some e ∧
        ∀ g bn hint p, encryptStream g e bn hint p = ⟨[], [], some .unsupportedAlgorithm⟩) ∧
      (∃ d, newDecryptor (List.replicate 32 0)
        ⟨DefaultChunkSize, false, false, AlgorithmChaCha20Poly1305⟩ = some d ∧
        ∀ g hint s, decryptStream g d hint s = ⟨[], [], some .unsupportedAlgorithm⟩)) :=
  ⟨by decide, by decide,
    c7_unsupported_algorithm (List.replicate 32 0)
      ⟨DefaultChunkSize, false, false, AlgorithmChaCha20Poly1305⟩
      (by decide) (by decide) (by decide) (by decide)⟩

/-- C2 (failing input): a stream of exactly the 24 header bytes with the
nonzero declared size `2^63` decrypts *successfully* with empty output —
the `int64` reinterpretation of the declared size is negative, so the
truncation check `totalSize > 0` is skipped instead of failing with a
truncation error as the claim requires. -/
theorem c2_truncation_check_skipped :
    beU64 [128, 0, 0, 0, 0, 0, 0, 0] = 2 ^ 63 ∧
    decryptStream toyGCM
      ⟨List.replicate 32 0, DefaultChunkSize, false, false, AlgorithmAESGCM⟩ none
      (MagicBytes ++ [Version] ++ List.replicate 12 0 ++ [128, 0, 0, 0, 0, 0, 0, 0]) =
      ⟨[], [], none⟩ := by
  constructor
  · decide
  · decide

/-- C5 (counterexample): a chunk whose 4-byte length field decodes to 5 — a
value in the claim's supposedly rejected range 1..16 — is *not* rejected
with the chunk-size error: the 5-byte body is read and the failure is the
later authentication error. -/
theorem c5_counterexample :
    beU32 [0, 0, 0, 5] = 5 ∧
    (decryptStream toyGCM
      ⟨List.replicate 32 0, DefaultChunkSize, false, false, AlgorithmAESGCM⟩ none
      (MagicBytes ++ [Version] ++ List.replicate 12 0 ++ List.replicate 8 0 ++
        [0, 0, 0, 5] ++ [9, 9, 9, 9, 9])).err = some DecErr.authFailure ∧
    (decryptStream toyGCM
      ⟨List.replicate 32 0, DefaultChunkSize, false, false, AlgorithmAESGCM⟩ none
      (MagicBytes ++ [Version] ++ List.replicate 12 0 ++ List.replicate 8 0 ++
        [0, 0, 0, 5] ++ [9, 9, 9, 9, 9])).err ≠ some DecErr.chunkSize := by
  refine ⟨by decide, by decide, by decide⟩

/-- C5 (amended): the decoder's pre-read validation of a decoded 4-byte
chunk length `L` rejects, with the chunk-size error and before reading any
body byte (for every continuation alike), exactly the values `L = 0` and
`L > MaxChunkSize + TagSize`; every `L` in `[1, MaxChunkSize + TagSize]` —
including 1..16 — passes the length check and the loop proceeds to read the
`L`-byte body (a too-short body yields the read error, not the chunk-size
error). -/
theorem c5_chunk_len_range_amended :
    ∀ (g : GCMModel) (bn aad : List Byte) (ps : Bool) (ts : Int) (ctr w : Nat)
      (a b c d : Byte) (rest : List Byte),
      a < 256 → b < 256 → c < 256 → d < 256 →
      ((beU32 [a, b, c, d] = 0 ∨ beU32 [a, b, c, d] > MaxChunkSize + TagSize) →
        ∀ rest2 : List Byte,
          decryptChunksAux g bn aad ps ts (4 + rest2.length) ctr w ([a, b, c, d] ++ rest2) =
            ⟨[], [], some .chunkSize⟩) ∧
      (1 ≤ beU32 [a, b, c, d] → beU32 [a, b, c, d] ≤ MaxChunkSize + TagSize →
        rest.length < beU32 [a, b, c, d] →
        decryptChunksAux g bn aad ps ts (4 + rest.length) ctr w ([a, b, c, d] ++ rest) =
          ⟨[], [], some .readChunk⟩) := by
  intro g bn aad ps ts ctr w a b c d rest ha hb hc hd
  have hunfold : ∀ (r : List Byte),
      decryptChunksAux g bn aad ps ts (4 + r.length) ctr w ([a, b, c, d] ++ r) =
        decryptChunksAux g bn aad ps ts ((3 + r.length) + 1) ctr w
          (a :: b :: c :: d :: r) := by
    intro r
    rw [show (4 : Nat) + r.length = (3 + r.length) + 1 by omega]
    rfl
  have htake : ∀ (r : List Byte), List.take 4 (a :: b :: c :: d :: r) = [a, b, c, d] := by
    intro r
    rfl
  have hdrop : ∀ (r : List Byte), List.drop 4 (a :: b :: c :: d :: r) = r := by
    intro r
    rfl
  have hlen : ∀ (r : List Byte), (a :: b :: c :: d :: r).length = 4 + r.length := by
    intro r
    simp
    omega
  constructor
  · intro hbad rest2
    rw [hunfold rest2]
    simp only [decryptChunksAux]
    rw [if_neg (by rw [hlen]; omega), htake]
    rw [if_pos hbad]
  · intro h1 hM hshort
    rw [hunfold rest]
    simp only [decryptChunksAux]
    rw [if_neg (by rw [hlen]; omega), htake]
    rw [if_neg (by omega), hdrop]
    rw [if_pos hshort]

/-- C5 witness for the amended claim: with length field `[255,255,255,255]`
(`L = 2^32 - 1 > MaxChunkSize + 16`) the chunk-size error fires with no
body present, and with length field `[0,0,0,5]` and an empty continuation
the length check passes and the body read fails instead. -/
theorem c5_chunk_len_range_witness :
    (255 : Nat) < 256 ∧ (0 : Nat) < 256 ∧
    decryptChunksAux toyGCM [] [] false 0 4 0 0 [255, 255, 255, 255] =
      ⟨[], [], some .chunkSize⟩ ∧
    decryptChunksAux toyGCM [] [] false 0 4 0 0 [0, 0, 0, 5] =
      ⟨[], [], some .readChunk⟩ := by
  refine ⟨by decide, by decide, ?_, ?_⟩
  · have h := (c5_chunk_len_range_amended toyGCM [] [] false 0 0 0 255 255 255 255 []
      (by decide) (by decide) (by decide) (by decide)).1 (by decide) []
    simpa using h
  · have h := (c5_chunk_len_range_amended toyGCM [] [] false 0 0 0 0 0 0 5 []
      (by decide) (by decide) (by decide) (by decide)).2 (by decide) (by decide) (by decide)
    simpa using h

/-! ## `encryptStream` projection lemmas (valid configuration) -/

theorem encryptStream_err (g : GCMModel) (e : Encryptor) (bn : List Byte)
    (hint : Option Int) (p : List Byte) (halg : isSupported e.algorithm = true)
    (hcs0 : e.chunkSize ≠ 0) (hcsM : e.chunkSize ≤ MaxChunkSize)
    (hkey : e.key.length = 32) :
    (encryptStream g e bn hint p).err =
      (encryptChunksAux g bn (be64 (toUint64 (hint.getD 0))) e.chunkSize
        e.progressSet (hint.getD 0) p.length e.startChunkCounter 0 0 p).err := by
  rw [encryptStream_eq g e bn hint p halg hcs0 hcsM hkey]
  cases h : (encryptChunksAux g bn (be64 (toUint64 (hint.getD 0))) e.chunkSize
      e.progressSet (hint.getD 0) p.length e.startChunkCounter 0 0 p).err <;>
    simp [h]

theorem encryptStream_out (g : GCMModel) (e : Encryptor) (bn : List Byte)
    (hint : Option Int) (p : List Byte) (halg : isSupported e.algorithm = true)
    (hcs0 : e.chunkSize ≠ 0) (hcsM : e.chunkSize ≤ MaxChunkSize)
    (hkey : e.key.length = 32) :
    (encryptStream g e bn hint p).out =
      (MagicBytes ++ [Version] ++ bn ++ be64 (toUint64 (hint.getD 0))) ++
        (encryptChunksAux g bn (be64 (toUint64 (hint.getD 0))) e.chunkSize
          e.progressSet (hint.getD 0) p.length e.startChunkCounter 0 0 p).out := by
  rw [encryptStream_eq g e bn hint p halg hcs0 hcsM hkey]
  cases h : (encryptChunksAux g bn (be64 (toUint64 (hint.getD 0))) e.chunkSize
      e.progressSet (hint.getD 0) p.length e.startChunkCounter 0 0 p).err <;>
    simp [h]

theorem encryptStream_events (g : GCMModel) (e : Encryptor) (bn : List Byte)
    (hint : Option Int) (p : List Byte) (halg : isSupported e.algorithm = true)
    (hcs0 : e.chunkSize ≠ 0) (hcsM : e.chunkSize ≤ MaxChunkSize)
    (hkey : e.key.length = 32) :
    (encryptStream g e bn hint p).events =
      (encryptChunksAux g bn (be64 (toUint64 (hint.getD 0))) e.chunkSize
        e.progressSet (hint.getD 0) p.length e.startChunkCounter 0 0 p).events ++
      (if (encryptChunksAux g bn (be64 (toUint64 (hint.getD 0))) e.chunkSize
          e.progressSet (hint.getD 0) p.length e.startChunkCounter 0 0 p).err = none then
        (if e.progressSet then [(1 : ℚ)] else []) else []) := by
  rw [encryptStream_eq g e bn hint p halg hcs0 hcsM hkey]
  cases h : (encryptChunksAux g bn (be64 (toUint64 (hint.getD 0))) e.chunkSize
      e.progressSet (hint.getD 0) p.length e.startChunkCounter 0 0 p).err <;>
    simp [h]

/-- C6 (counterexample, both halves of the claim): (a) with a progress
callback configured and *no* size hint, `EncryptStream` still invokes the
callback — exactly once, with 1.0, at completion — contradicting "never
invoked"; (b) with a size hint present but smaller than the actual source
(hint 1, two-byte source, chunk size 1), the callback receives the fraction
`2/1 = 2.0`, outside `[0.0, 1.0]` — contradicting "whenever it is invoked
(size hint present), the argument is a fraction in [0.0, 1.0]". -/
theorem c6_counterexample :
    ((encryptStream toyGCM ⟨List.replicate 32 0, 1, true, false, AlgorithmAESGCM, 0⟩
        (List.replicate 12 0) none [1]).events = [(1 : ℚ)] ∧
      (encryptStream toyGCM ⟨List.replicate 32 0, 1, true, false, AlgorithmAESGCM, 0⟩
        (List.replicate 12 0) none [1]).events ≠ []) ∧
    ((encryptStream toyGCM ⟨List.replicate 32 0, 1, true, false, AlgorithmAESGCM, 0⟩
        (List.replicate 12 0) (some 1) [1, 2]).events = [(1 : ℚ), 2, 1] ∧
      ∃ q ∈ (encryptStream toyGCM ⟨List.replicate 32 0, 1, true, false, AlgorithmAESGCM, 0⟩
        (List.replicate 12 0) (some 1) [1, 2]).events, 1 < q) := by
  refine ⟨⟨by decide, by decide⟩, by with_unfolding_all decide, by with_unfolding_all decide⟩

/-- C6 (amended): with a progress callback configured on a valid encryptor,
(a) a call without a size hint that succeeds invokes the callback exactly
once, with fraction 1.0, at completion (never during the loop); (b) when the
size hint equals the actual source length, every invocation's argument is a
fraction in `[0, 1]`; and (c) such a call, on success, ends with a final
invocation of 1.0. -/
theorem c6_progress_amended :
    ∀ (g : GCMModel) (e : Encryptor) (bn p : List Byte),
      e.progressSet = true → isSupported e.algorithm = true → e.chunkSize ≠ 0 →
      e.chunkSize ≤ MaxChunkSize → e.key.length = 32 →
      ((encryptStream g e bn none p).err = none →
        (encryptStream g e bn none p).events = [(1 : ℚ)]) ∧
      (∀ q ∈ (encryptStream g e bn (some (p.length : Int)) p).events,
        0 ≤ q ∧ q ≤ 1) ∧
      ((encryptStream g e bn (some (p.length : Int)) p).err = none →
        ((encryptStream g e bn (some (p.length : Int)) p).events).getLast? =
          some 1) := by
  intro g e bn p hps halg hcs0 hcsM hkey
  have hcs1 : 1 ≤ e.chunkSize := by omega
  refine ⟨?_, ?_, ?_⟩
  · intro herr
    rw [encryptStream_err g e bn none p halg hcs0 hcsM hkey] at herr
    rw [encryptStream_events g e bn none p halg hcs0 hcsM hkey, herr,
      encryptChunksAux_events_nonpos g bn _ e.chunkSize e.progressSet _ (by simp),
      if_pos rfl, if_pos hps, List.nil_append]
  · intro q hq
    rw [encryptStream_events g e bn (some (p.length : Int)) p halg hcs0 hcsM hkey] at hq
    rw [List.mem_append] at hq
    rcases hq with hq | hq
    · exact encryptChunksAux_events_bounds g bn _ e.chunkSize e.progressSet _ hcs1
        p.length p e.startChunkCounter 0 0 le_rfl (by simp) q hq
    · split at hq
      · rw [List.mem_singleton] at hq
        subst hq
        exact ⟨by norm_num, le_refl 1⟩
      · simp at hq
  · intro herr
    rw [encryptStream_err g e bn (some (p.length : Int)) p halg hcs0 hcsM hkey] at herr
    rw [encryptStream_events g e bn (some (p.length : Int)) p halg hcs0 hcsM hkey, herr,
      if_pos rfl, if_pos hps]
    exact List.getLast?_concat _

/-- C6 witness for the amended claim: a concrete valid encryptor with a
progress callback, base nonce of 12 zero bytes, and plaintext `[1, 2]`. -/
theorem c6_progress_witness :
    ((⟨List.replicate 32 0, 1, true, false, AlgorithmAESGCM, 0⟩ : Encryptor).progressSet =
        true ∧
      isSupported (⟨List.replicate 32 0, 1, true, false, AlgorithmAESGCM, 0⟩ :
        Encryptor).algorithm = true) ∧
    (((encryptStream toyGCM ⟨List.replicate 32 0, 1, true, false, AlgorithmAESGCM, 0⟩
        (List.replicate 12 0) none [1, 2]).err = none →
      (encryptStream toyGCM ⟨List.replicate 32 0, 1, true, false, AlgorithmAESGCM, 0⟩
        (List.replicate 12 0) none [1, 2]).events = [(1 : ℚ)]) ∧
     (∀ q ∈ (encryptStream toyGCM ⟨List.replicate 32 0, 1, true, false, AlgorithmAESGCM, 0⟩
        (List.replicate 12 0) (some (([1, 2] : List Byte).length : Int)) [1, 2]).events,
        0 ≤ q ∧ q ≤ 1) ∧
     ((encryptStream toyGCM ⟨List.replicate 32 0, 1, true, false, AlgorithmAESGCM, 0⟩
        (List.replicate 12 0) (some (([1, 2] : List Byte).length : Int)) [1, 2]).err =
          none →
      ((encryptStream toyGCM ⟨List.replicate 32 0, 1, true, false, AlgorithmAESGCM, 0⟩
        (List.replicate 12 0) (some (([1, 2] : List Byte).length : Int)) [1, 2]).events).getLast? =
        some 1)) :=
  ⟨⟨by decide, by decide⟩,
    c6_progress_amended toyGCM ⟨List.replicate 32 0, 1, true, false, AlgorithmAESGCM, 0⟩
      (List.replicate 12 0) [1, 2] (by decide) (by decide) (by decide) (by decide)
      (by decide)⟩

/-- C4: (a) whenever the just-incremented chunk counter wraps to 0, the
encryption loop aborts at once with the nonce-overflow error, sealing and
writing nothing for that chunk and never retrying; (b) a successful
`EncryptStream` never lets the counter reach 0 after an increment: the
start counter plus the number of chunks stays below `2^32`, so every
per-chunk increment is nonzero. -/
theorem c4_nonce_overflow :
    (∀ (g : GCMModel) (bn aad : List Byte) (cs : Nat) (ps : Bool) (ts : Int)
       (fuel ctr w : Nat) (pn : Int) (x : Byte) (xs : List Byte),
       (ctr + 1) % 2 ^ 32 = 0 →
       encryptChunksAux g bn aad cs ps ts (fuel + 1) ctr w pn (x :: xs) =
         ⟨[], [], some .nonceOverflow⟩) ∧
    (∀ (g : GCMModel) (e : Encryptor) (bn : List Byte) (hint : Option Int)
       (p : List Byte),
       isSupported e.algorithm = true → e.chunkSize ≠ 0 →
       e.chunkSize ≤ MaxChunkSize → e.key.length = 32 →
       e.startChunkCounter < 2 ^ 32 →
       (encryptStream g e bn hint p).err = none →
       e.startChunkCounter + (chunksOf e.chunkSize p).length < 2 ^ 32 ∧
       ∀ i < (chunksOf e.chunkSize p).length,
         (e.startChunkCounter + i + 1) % 2 ^ 32 ≠ 0) := by
  constructor
  · intro g bn aad cs ps ts fuel ctr w pn x xs h
    simp only [encryptChunksAux, h]
    rfl
  · intro g e bn hint p halg hcs0 hcsM hkey hstart herr
    rw [encryptStream_err g e bn hint p halg hcs0 hcsM hkey] at herr
    have hA : e.startChunkCounter + (chunksOf e.chunkSize p).length < 2 ^ 32 := by
      by_contra hcon
      simp only [chunksOf] at hcon
      have hov := encryptChunksAux_overflow g bn (be64 (toUint64 (hint.getD 0)))
        e.chunkSize e.progressSet (hint.getD 0) (by omega) p.length p
        e.startChunkCounter 0 0 le_rfl hstart (by omega)
      rw [hov] at herr
      cases herr
    exact ⟨hA, fun i hi => by omega⟩

/-- C4 witness: wrap at counter `2^32 - 1` aborts with the nonce-overflow
error on a concrete one-byte chunk, and a concrete successful encryption of
three bytes with chunk size 1 keeps the counter below the wrap bound. -/
theorem c4_nonce_overflow_witness :
    ((2 ^ 32 - 1 + 1) % 2 ^ 32 = 0 ∧
      encryptChunksAux toyGCM (List.replicate 12 0) [] 1 false 0 1 (2 ^ 32 - 1) 0 0 [7] =
        ⟨[], [], some .nonceOverflow⟩) ∧
    ((encryptStream toyGCM ⟨List.replicate 32 0, 1, false, false, AlgorithmAESGCM, 0⟩
        (List.replicate 12 0) none [1, 2, 3]).err = none ∧
      (0 : Nat) + (chunksOf 1 [1, 2, 3]).length < 2 ^ 32) := by
  constructor
  · refine ⟨by decide, ?_⟩
    exact c4_nonce_overflow.1 toyGCM (List.replicate 12 0) [] 1 false 0 0 (2 ^ 32 - 1) 0 0
      7 [] (by decide)
  · refine ⟨by decide, ?_⟩
    have h := (c4_nonce_overflow.2 toyGCM
      ⟨List.replicate 32 0, 1, false, false, AlgorithmAESGCM, 0⟩
      (List.replicate 12 0) none [1, 2, 3] (by decide) (by decide) (by decide)
      (by decide) (by decide) (by decide)).1
    simpa using h

/-! ## More codec lemmas for the header layout -/

theorem be64_mod (n : Nat) : be64 (n % 2 ^ 64) = be64 n := by
  simp only [be64, List.cons.injEq, and_true]
  norm_num

theorem toUint64_eq (i : Int) (h : 0 ≤ i) : toUint64 i = i.toNat % 2 ^ 64 := by
  unfold toUint64
  omega

/-- C9: for a valid encryptor, the output of `EncryptStream` starts with
exactly the 24 header bytes — the magic bytes "GFE", the version byte 1,
the 12-byte base nonce, and the 8-byte big-endian declared plaintext size
(the size hint when given, else 0) — written before the chunk frames. -/
theorem c9_header_layout :
    ∀ (g : GCMModel) (e : Encryptor) (bn : List Byte) (hint : Option Int)
      (p : List Byte),
      isSupported e.algorithm = true → e.chunkSize ≠ 0 → e.chunkSize ≤ MaxChunkSize →
      e.key.length = 32 → bn.length = 12 → 0 ≤ hint.getD 0 →
      (encryptStream g e bn hint p).out =
        (MagicBytes ++ [Version] ++ bn ++ be64 (hint.getD 0).toNat) ++
          (encryptChunksAux g bn (be64 (hint.getD 0).toNat) e.chunkSize
            e.progressSet (hint.getD 0) p.length e.startChunkCounter 0 0 p).out ∧
      (MagicBytes ++ [Version] ++ bn ++ be64 (hint.getD 0).toNat).length = HeaderSize ∧
      HeaderSize = 24 ∧
      (encryptStream g e bn hint p).out.take 24 =
        MagicBytes ++ [Version] ++ bn ++ be64 (hint.getD 0).toNat := by
  intro g e bn hint p halg hcs0 hcsM hkey hbn hhint
  have hbe : be64 (toUint64 (hint.getD 0)) = be64 (hint.getD 0).toNat := by
    rw [toUint64_eq _ hhint, be64_mod]
  have hout := encryptStream_out g e bn hint p halg hcs0 hcsM hkey
  rw [hbe] at hout
  have hlen : (MagicBytes ++ [Version] ++ bn ++ be64 (hint.getD 0).toNat).length = 24 := by
    simp [MagicBytes, be64, hbn]
  refine ⟨hout, by rw [hlen]; rfl, rfl, ?_⟩
  rw [hout, List.take_left' hlen]

/-- C9 witness: concrete valid encryptor, 12-byte nonce of zeros, size hint
5, plaintext `[1, 2]`. -/
theorem c9_header_layout_witness :
    ((0 : Int) ≤ (some (5 : Int)).getD 0 ∧ (List.replicate 12 (3 : Nat)).length = 12) ∧
    ((encryptStream toyGCM ⟨List.replicate 32 0, 1, false, false, AlgorithmAESGCM, 0⟩
        (List.replicate 12 3) (some 5) [1, 2]).out =
      (MagicBytes ++ [Version] ++ List.replicate 12 3 ++
          be64 ((some (5 : Int)).getD 0).toNat) ++
        (encryptChunksAux toyGCM (List.replicate 12 3)
          (be64 ((some (5 : Int)).getD 0).toNat) 1 false ((some (5 : Int)).getD 0)
          ([1, 2] : List Byte).length 0 0 0 [1, 2]).out ∧
      (MagicBytes ++ [Version] ++ List.replicate 12 3 ++
        be64 ((some (5 : Int)).getD 0).toNat).length = HeaderSize ∧
      HeaderSize = 24 ∧
      (encryptStream toyGCM ⟨List.replicate 32 0, 1, false, false, AlgorithmAESGCM, 0⟩
        (List.replicate 12 3) (some 5) [1, 2]).out.take 24 =
        MagicBytes ++ [Version] ++ List.replicate 12 3 ++
          be64 ((some (5 : Int)).getD 0).toNat) :=
  ⟨⟨by decide, by decide⟩,
    c9_header_layout toyGCM ⟨List.replicate 32 0, 1, false, false, AlgorithmAESGCM, 0⟩
      (List.replicate 12 3) (some 5) [1, 2] (by decide) (by decide) (by decide)
      (by decide) (by decide) (by decide)⟩

/-- C3: (a) the chunk nonce is the 12-byte base nonce with its first 8
bytes kept and its last 4 bytes replaced by the 32-bit big-endian encoding
of the chunk counter; (b) encryption produces exactly the frames in which
chunk `i` (counting from 0) is sealed with `nonceFor bn i`, the counter
advancing by one per chunk; (c) decryption of any framed stream opens chunk
`i` with the same `nonceFor bn i`, the counter advancing identically
(`decOutputs` applies `openAEAD` with `nonceFor bn (0 + i)` to the `i`-th
chunk). -/
theorem c3_nonce_derivation :
    (∀ (bn : List Byte) (i : Nat), bn.length = 12 →
      (nonceFor bn i).length = 12 ∧ (nonceFor bn i).take 8 = bn.take 8 ∧
      (nonceFor bn i).drop 8 = be32 i ∧ beU32 (be32 i) = i % 2 ^ 32) ∧
    (∀ (g : GCMModel) (e : Encryptor) (bn : List Byte) (hint : Option Int)
      (p : List Byte),
      isSupported e.algorithm = true → e.chunkSize ≠ 0 → e.chunkSize ≤ MaxChunkSize →
      e.key.length = 32 → e.startChunkCounter = 0 →
      (chunksOf e.chunkSize p).length < 2 ^ 32 →
      (encryptStream g e bn hint p).out =
        (MagicBytes ++ [Version] ++ bn ++ be64 (toUint64 (hint.getD 0))) ++
          encFrames g bn (be64 (toUint64 (hint.getD 0))) 0 (chunksOf e.chunkSize p)) ∧
    (∀ (g : GCMModel) (bn aad : List Byte) (ps : Bool) (ts : Int)
      (cts : List (List Byte)) (o : List Byte) (w : Nat),
      (∀ ct ∈ cts, ct.length ≠ 0 ∧ ct.length ≤ MaxChunkSize + TagSize) →
      cts.length < 2 ^ 32 →
      decOutputs g bn aad 0 cts = some o →
      (decryptChunksAux g bn aad ps ts (frames cts).length 0 w (frames cts)).out = o ∧
      (decryptChunksAux g bn aad ps ts (frames cts).length 0 w (frames cts)).err =
        none) := by
  refine ⟨?_, ?_, ?_⟩
  · intro bn i hbn
    have ht8 : (bn.take 8).length = 8 := by
      rw [List.length_take, hbn]
      rfl
    refine ⟨?_, ?_, ?_, beU32_be32 i⟩
    · simp [nonceFor, List.length_take, hbn, be32]
    · rw [nonceFor, List.take_left' ht8]
    · rw [nonceFor, List.drop_left' ht8]
  · intro g e bn hint p halg hcs0 hcsM hkey hstart hchunks
    simp only [chunksOf] at hchunks ⊢
    have hok := encryptChunksAux_ok g bn (be64 (toUint64 (hint.getD 0))) e.chunkSize
      e.progressSet (hint.getD 0) (by omega) p.length p e.startChunkCounter 0 0 le_rfl
      (by omega)
    rw [encryptStream_out g e bn hint p halg hcs0 hcsM hkey, hok.1, hstart]
  · intro g bn aad ps ts cts o w hwf hcts ho
    exact decryptChunksAux_frames g bn aad ps ts cts o (frames cts).length 0 w le_rfl
      hwf (by omega) ho

/-- C3 witness: the nonce shape at base nonce `replicate 12 7` and counter
5; a concrete two-chunk encryption with chunk size 1; and a concrete framed
one-chunk decryption. -/
theorem c3_nonce_derivation_witness :
    ((List.replicate 12 (7 : Nat)).length = 12 ∧
      (nonceFor (List.replicate 12 7) 5).length = 12 ∧
      (nonceFor (List.replicate 12 7) 5).take 8 = (List.replicate 12 7).take 8 ∧
      (nonceFor (List.replicate 12 7) 5).drop 8 = be32 5 ∧
      beU32 (be32 5) = 5 % 2 ^ 32) ∧
    ((encryptStream toyGCM ⟨List.replicate 32 0, 1, false, false, AlgorithmAESGCM, 0⟩
        (List.replicate 12 7) none [1, 2]).out =
      (MagicBytes ++ [Version] ++ List.replicate 12 7 ++
          be64 (toUint64 ((none : Option Int).getD 0))) ++
        encFrames toyGCM (List.replicate 12 7)
          (be64 (toUint64 ((none : Option Int).getD 0))) 0 (chunksOf 1 [1, 2])) ∧
    (decOutputs toyGCM (List.replicate 12 7) [] 0 [List.replicate 17 0] =
        some [(0 : Nat)] ∧
      (decryptChunksAux toyGCM (List.replicate 12 7) [] false 0
        (frames [List.replicate 17 0]).length 0 0
        (frames [List.replicate 17 0])).out = [(0 : Nat)] ∧
      (decryptChunksAux toyGCM (List.replicate 12 7) [] false 0
        (frames [List.replicate 17 0]).length 0 0
        (frames [List.replicate 17 0])).err = none) :=
  ⟨⟨by decide, c3_nonce_derivation.1 (List.replicate 12 7) 5 (by decide)⟩,
    c3_nonce_derivation.2.1 toyGCM ⟨List.replicate 32 0, 1, false, false, AlgorithmAESGCM, 0⟩
      (List.replicate 12 7) none [1, 2] (by decide) (by decide) (by decide) (by decide)
      (by decide) (by decide),
    ⟨by decide,
      c3_nonce_derivation.2.2 toyGCM (List.replicate 12 7) [] false 0
        [List.replicate 17 0] [(0 : Nat)] 0 (by decide) (by decide) (by decide)⟩⟩

/-- C1 (amended): round-trip holds for every plaintext that fits in fewer
than `2^32` chunks at the configured chunk size: encrypting `P` with a valid
encryptor (AEAD instance `g` of the shared key, fresh 12-byte base nonce)
succeeds and decrypting the produced stream with a valid decryptor on the
same AEAD instance succeeds and writes exactly `P` to the sink. -/
theorem c1_roundtrip_amended :
    ∀ (g : GCMModel) (e : Encryptor) (d : Decryptor) (bn p : List Byte),
      g.Correct →
      isSupported e.algorithm = true → e.chunkSize ≠ 0 → e.chunkSize ≤ MaxChunkSize →
      e.key.length = 32 → e.startChunkCounter = 0 →
      isSupported d.algorithm = true → d.key.length = 32 →
      bn.length = 12 →
      (chunksOf e.chunkSize p).length < 2 ^ 32 →
      (encryptStream g e bn none p).err = none ∧
      (decryptStream g d none ((encryptStream g e bn none p).out)).out = p ∧
      (decryptStream g d none ((encryptStream g e bn none p).out)).err = none := by
  intro g e d bn p hg halg hcs0 hcsM hkey hstart hdalg hdkey hbn hchunks
  obtain ⟨hopen, hslen⟩ := hg
  have hcs1 : 1 ≤ e.chunkSize := by omega
  simp only [chunksOf] at hchunks
  -- encryption succeeds and produces the sealed frames
  have hok := encryptChunksAux_ok g bn (be64 (toUint64 ((none : Option Int).getD 0)))
    e.chunkSize e.progressSet ((none : Option Int).getD 0) hcs1 p.length p
    e.startChunkCounter 0 0 le_rfl (by omega)
  have herr : (encryptStream g e bn none p).err = none := by
    rw [encryptStream_err g e bn none p halg hcs0 hcsM hkey]
    exact hok.2
  have hout : (encryptStream g e bn none p).out =
      MagicBytes ++ [Version] ++ bn ++ be64 0 ++
        frames (sealChunks g bn (be64 0) 0 (chunksOfAux e.chunkSize p.length p)) := by
    rw [encryptStream_out g e bn none p halg hcs0 hcsM hkey, hok.1, hstart]
    simp only [Option.getD_none, toUint64_zero, encFrames_eq_frames, List.append_assoc]
  -- well-formedness of the sealed frames
  have hwf : ∀ ct ∈ sealChunks g bn (be64 0) 0 (chunksOfAux e.chunkSize p.length p),
      ct.length ≠ 0 ∧ ct.length ≤ MaxChunkSize + TagSize := by
    intro ct hct
    obtain ⟨c, hc, hctlen⟩ := sealChunks_mem_length g bn (be64 0) hslen _ 0 ct hct
    obtain ⟨hc0, hcs⟩ := chunksOfAux_mem_bounds e.chunkSize hcs1 p.length p c hc
    constructor
    · omega
    · omega
  have hdecout := decOutputs_sealChunks g bn (be64 0) hopen
    (chunksOfAux e.chunkSize p.length p) 0
  have hjoin := chunksOfAux_join e.chunkSize hcs1 p.length p le_rfl
  have hdec := decryptChunksAux_frames g bn (be64 0) d.progressSet 0
    (sealChunks g bn (be64 0) 0 (chunksOfAux e.chunkSize p.length p))
    (chunksOfAux e.chunkSize p.length p).flatten
    (frames (sealChunks g bn (be64 0) 0 (chunksOfAux e.chunkSize p.length p))).length
    0 0 le_rfl hwf
    (by rw [sealChunks_length]; omega) hdecout
  refine ⟨herr, ?_, ?_⟩ <;>
  · rw [hout, decryptStream_parse g d none bn (be64 0) _ hdalg hdkey hbn (be64_length 0)]
    simp only [beU64_be64, Nat.zero_mod, gt_iff_lt, lt_irrefl, if_false,
      Option.getD_none, hdec.2, hdec.1, hjoin]
    norm_num

/-- C1 witness for the amended round-trip at a concrete instance: the
stand-in AEAD, chunk size 1, base nonce of 12 zero bytes, plaintext
`[1, 2, 3]`. -/
theorem c1_roundtrip_witness :
    (toyGCM.Correct ∧ (chunksOf 1 [1, 2, 3]).length < 2 ^ 32) ∧
    ((encryptStream toyGCM ⟨List.replicate 32 0, 1, false, false, AlgorithmAESGCM, 0⟩
        (List.replicate 12 0) none [1, 2, 3]).err = none ∧
      (decryptStream toyGCM ⟨List.replicate 32 0, DefaultChunkSize, false, false,
          AlgorithmAESGCM⟩ none
        ((encryptStream toyGCM ⟨List.replicate 32 0, 1, false, false, AlgorithmAESGCM, 0⟩
          (List.replicate 12 0) none [1, 2, 3]).out)).out = [1, 2, 3] ∧
      (decryptStream toyGCM ⟨List.replicate 32 0, DefaultChunkSize, false, false,
          AlgorithmAESGCM⟩ none
        ((encryptStream toyGCM ⟨List.replicate 32 0, 1, false, false, AlgorithmAESGCM, 0⟩
          (List.replicate 12 0) none [1, 2, 3]).out)).err = none) :=
  ⟨⟨toyGCM_correct, by decide⟩,
    c1_roundtrip_amended toyGCM ⟨List.replicate 32 0, 1, false, false, AlgorithmAESGCM, 0⟩
      ⟨List.replicate 32 0, DefaultChunkSize, false, false, AlgorithmAESGCM⟩
      (List.replicate 12 0) [1, 2, 3] toyGCM_correct (by decide) (by decide) (by decide)
      (by decide) (by decide) (by decide) (by decide) (by decide) (by decide)⟩

/-- C1 (counterexample): the claim fails for a plaintext of `2^32` bytes
with chunk size 1 (a legal configuration): the chunk counter wraps, so
`EncryptStream` aborts with the nonce-overflow error and no round trip
exists for this plaintext. -/
theorem c1_counterexample :
    (encryptStream toyGCM ⟨List.replicate 32 0, 1, false, false, AlgorithmAESGCM, 0⟩
      (List.replicate 12 0) none (List.replicate (2 ^ 32) 0)).err =
      some EncErr.nonceOverflow := by
  rw [encryptStream_err toyGCM ⟨List.replicate 32 0, 1, false, false, AlgorithmAESGCM, 0⟩
    (List.replicate 12 0) none (List.replicate (2 ^ 32) 0) (by decide) (by decide)
    (by decide) (by decide)]
  have hlen1 : (chunksOfAux 1 (List.replicate (2 ^ 32) (0 : Nat)).length
      (List.replicate (2 ^ 32) 0)).length = 2 ^ 32 := by
    rw [chunksOfAux_one_length _ _ le_rfl, List.length_replicate]
  exact encryptChunksAux_overflow toyGCM (List.replicate 12 0)
    (be64 (toUint64 ((none : Option Int).getD 0))) 1 false ((none : Option Int).getD 0)
    le_rfl (List.replicate (2 ^ 32) 0).length (List.replicate (2 ^ 32) 0) 0 0 0 le_rfl
    (by norm_num) (by omega)

end FileEncrypt
